import Mathlib

/-!
Verification of the text-normalization pipeline of resume-matcher-api.

The repository contains two Python source files,
`ResumeMatcher.API/Python/parse_resume_script.py` (CLI entry point) and
`ResumeMatcher.API/Python/resume_parser.py` (Flask service).  Both define a
function `clean_text` as the same fixed sequence of eleven rewriting rules
(regex substitutions, literal character replacements, a final strip), and an
`extract_resume` step that joins per-page extracted text with a single
line-break before cleaning.

Strings are modelled as `List Char`; each rule is translated into a
structurally recursive function so that concrete runs reduce in the kernel.
Python regex scanning semantics (leftmost match, greedy quantifiers,
resumption after the end of the previous match) are modelled faithfully;
notes on each function record the regex it embeds.
-/

set_option maxRecDepth 20000

/-- Word characters as matched by the regex class `\w` used in
`re.sub(r"(\w+)-\n(\w+)", ...)`.  Python's `\w` additionally matches
non-ASCII word characters; those are immaterial to every claim treated here
(rule 2 erases every non-ASCII character immediately afterwards) and are
modelled as non-word. -/
def isWordChar (c : Char) : Bool := c.isAlphanum || c == '_'

/-- Characters with a code point above `0x7F`, the class `[^\x00-\x7F]`
of rule 2.  Note the class keeps every 7-bit character, control characters
included. -/
def isNonAscii (c : Char) : Bool := decide (127 < c.toNat)

/-- The nine decorative bullet glyphs of rule 3, the regex class
`[•●◦◆▶➤►★▪]`. -/
def isBulletGlyph (c : Char) : Bool :=
  c == '•' || c == '●' || c == '◦' || c == '◆' || c == '▶' ||
  c == '➤' || c == '►' || c == '★' || c == '▪'

/-- Whitespace as matched by Python's `\s` and `str.strip`, restricted to
the 7-bit range: space, tab, line feed, carriage return, vertical tab,
form feed, and the separator control characters `\x1c`-`\x1f`.  Every rule
that consults `\s` runs after rule 2 has erased all characters above
`0x7F`, so the 7-bit restriction is exact. -/
def isSpacePy (c : Char) : Bool :=
  c == ' ' || c == '\t' || c == '\n' || c == '\r' ||
  c == Char.ofNat 11 || c == Char.ofNat 12 ||
  (decide (28 ≤ c.toNat) && decide (c.toNat ≤ 31))

/-- Sentence punctuation of rule 7, the regex class `[.,:;!?]`. -/
def isStopPunct (c : Char) : Bool :=
  c == '.' || c == ',' || c == ':' || c == ';' || c == '!' || c == '?'

/-- Separator characters of rule 8, the regex class `[-=]`. -/
def isSepChar (c : Char) : Bool := c == '-' || c == '='

/-- The line-break character of rule 9 (`\n`). -/
def isNewlineChar (c : Char) : Bool := c == '\n'

/-- The character class `[\s\-•●◦*]` of rule 5
(`re.sub(r"^[\s\-•●◦*]+", "- ", text, flags=re.MULTILINE)`). -/
def leadClass (c : Char) : Bool :=
  isSpacePy c || c == '-' || c == '•' || c == '●' || c == '◦' || c == '*'

/-- Scanner for rule 1, `re.sub(r"(\w+)-\n(\w+)", r"\1\2", text)`.
The flag `usable` records whether the word-character run containing the
current position may still serve as the `\1` group of a new match; it is
cleared when a run was consumed as the `\2` group of the previous match
(Python resumes scanning after the end of a match) and set again at the
first non-word character. -/
def hmAux : Bool → List Char → List Char
  | _, [] => []
  | usable, c :: d1 :: d2 :: d3 :: ds =>
    if d1 == '-' && d2 == '\n' && isWordChar c && usable && isWordChar d3 then
      c :: hmAux false (d3 :: ds)
    else
      c :: hmAux (if isWordChar c then usable else true) (d1 :: d2 :: d3 :: ds)
  | usable, c :: cs => c :: hmAux (if isWordChar c then usable else true) cs

/-- Rule 1, hyphenated line-break merge. -/
def mergeHyphenBreaks (l : List Char) : List Char := hmAux true l

/-- Scanner replacing each maximal run of `p`-characters with `r`,
modelling `re.sub("<class>+", r, text)`.  The flag `inRun` is set while the
run whose replacement has already been emitted is being consumed. -/
def squash1Aux (p : Char → Bool) (r : List Char) : Bool → List Char → List Char
  | _, [] => []
  | true, c :: cs =>
    if p c then squash1Aux p r true cs else c :: squash1Aux p r false cs
  | false, c :: cs =>
    if p c then r ++ squash1Aux p r true cs else c :: squash1Aux p r false cs

/-- Rule 2, `re.sub(r"[^\x00-\x7F]+", " ", text)`. -/
def stripNonAscii (l : List Char) : List Char :=
  squash1Aux isNonAscii [' '] false l

/-- Character action of rule 3: a bullet glyph becomes one space. -/
def bulletSub (c : Char) : Char := if isBulletGlyph c then ' ' else c

/-- Rule 3, `re.sub(r"[•●◦◆▶➤►★▪]", " ", text)`: each single glyph becomes
one space. -/
def replaceBulletGlyphs (l : List Char) : List Char := l.map bulletSub

/-- Character action of the chained
`.replace("“",'"').replace("”",'"').replace("‘","'").replace("’","'")`.
The four targets are distinct and no replacement output is itself a target,
so the chain is one character-wise substitution. -/
def quoteSub (c : Char) : Char :=
  if c == '“' || c == '”' then '"'
  else if c == '‘' || c == '’' then Char.ofNat 39
  else c

/-- Rule 4, smart quotes to ASCII. -/
def asciiQuotes (l : List Char) : List Char := l.map quoteSub

/-- Character action of `.replace("–","-").replace("—","-")`. -/
def dashSub (c : Char) : Char := if c == '–' || c == '—' then '-' else c

/-- Rule 4 continued, en/em dashes to the hyphen-minus. -/
def asciiDashes (l : List Char) : List Char := l.map dashSub

/-- Scanner for rule 5, `re.sub(r"^[\s\-•●◦*]+", "- ", text, flags=re.MULTILINE)`.
`atStart` holds at position 0 and directly after each `'\n'`; `skipping`
holds while the matched leading run (whose replacement `"- "` has already
been emitted) is being consumed.  A matched run may swallow line breaks,
since `\s` is part of the class. -/
def leadAux : Bool → Bool → List Char → List Char
  | _, _, [] => []
  | true, _, c :: cs =>
    if leadClass c then leadAux true false cs
    else c :: leadAux false (c == '\n') cs
  | false, true, c :: cs =>
    if leadClass c then '-' :: ' ' :: leadAux true false cs
    else c :: leadAux false (c == '\n') cs
  | false, false, c :: cs => c :: leadAux false (c == '\n') cs

/-- Rule 5, leading-bullet normalization. -/
def normalizeLeadingBullets (l : List Char) : List Char := leadAux false true l

/-- Rule 6, `re.sub(r"(?<=[a-z])(?=[A-Z])", " ", text)`: a space is inserted
between each lowercase letter and the uppercase letter directly after it. -/
def camelSplit : List Char → List Char
  | [] => []
  | [c] => [c]
  | a :: b :: cs =>
    if a.isLower && b.isUpper then a :: ' ' :: camelSplit (b :: cs)
    else a :: camelSplit (b :: cs)

/-- Rule 7, `re.sub(r"([.,:;!?])(?=\S)", r"\1 ", text)`: a space is inserted
after sentence punctuation directly followed by a non-whitespace
character. -/
def punctSpace : List Char → List Char
  | [] => []
  | [c] => [c]
  | a :: b :: cs =>
    if isStopPunct a && !isSpacePy b then a :: ' ' :: punctSpace (b :: cs)
    else a :: punctSpace (b :: cs)

/-- Scanner replacing each maximal run of two or more `p`-characters with
`r` and keeping isolated `p`-characters, modelling
`re.sub("<class>\x7b2,\x7d", r, text)`.  `inRun` is set while a replaced run
is being consumed. -/
def squash2Aux (p : Char → Bool) (r : List Char) : Bool → List Char → List Char
  | _, [] => []
  | true, [c] => if p c then [] else [c]
  | false, [c] => [c]
  | true, c :: d :: cs =>
    if p c then squash2Aux p r true (d :: cs)
    else c :: squash2Aux p r false (d :: cs)
  | false, c :: d :: cs =>
    if p c then
      if p d then r ++ squash2Aux p r true (d :: cs)
      else c :: squash2Aux p r false (d :: cs)
    else c :: squash2Aux p r false (d :: cs)

/-- Rule 8, `re.sub(r"[-=]\x7b2,\x7d", " ", text)`. -/
def squashSeparators (l : List Char) : List Char :=
  squash2Aux isSepChar [' '] false l

/-- Rule 9, `re.sub(r"\n\x7b2,\x7d", "\n", text)`. -/
def squashNewlines (l : List Char) : List Char :=
  squash2Aux isNewlineChar ['\n'] false l

/-- Rule 10, `re.sub(r"\s+", " ", text)`. -/
def collapseWhitespace (l : List Char) : List Char :=
  squash1Aux isSpacePy [' '] false l

/-- Rule 11, `text.strip()`: leading and trailing Python whitespace is
removed. -/
def pyStrip (l : List Char) : List Char :=
  ((l.dropWhile isSpacePy).reverse.dropWhile isSpacePy).reverse

namespace ParseResumeScript

/-- Model of `clean_text` from `parse_resume_script.py`, lines 6-18: the
eleven rules applied in source order. -/
def clean_text (text : List Char) : List Char :=
  pyStrip
    (collapseWhitespace
      (squashNewlines
        (squashSeparators
          (punctSpace
            (camelSplit
              (normalizeLeadingBullets
                (asciiDashes
                  (asciiQuotes
                    (replaceBulletGlyphs
                      (stripNonAscii
                        (mergeHyphenBreaks text)))))))))))

/-- Model of `page.extract_text() or ""`: a page that yields no text
contributes the empty string. -/
def pageText : Option String → String
  | none => ""
  | some s => s

/-- Model of `"\n".join(page.extract_text() or "" for page in pdf.pages)`
from `extract_resume` (lines 20-23): the ordered page texts joined by a
single line-break. -/
def joinPages : List (Option String) → String
  | [] => ""
  | [p] => pageText p
  | p :: ps => pageText p ++ "\n" ++ joinPages ps

/-- Model of `extract_resume` from `parse_resume_script.py`, lines 20-23
(page extraction itself is the external collaborator; its per-page results
are the input). -/
def extract_resume (pages : List (Option String)) : String :=
  String.mk (clean_text (joinPages pages).data)

end ParseResumeScript

namespace ResumeParserApp

/-- Model of `clean_text` from `resume_parser.py`, lines 7-35: the same
eleven rules in the same order as the CLI variant. -/
def clean_text (text : List Char) : List Char :=
  pyStrip
    (collapseWhitespace
      (squashNewlines
        (squashSeparators
          (punctSpace
            (camelSplit
              (normalizeLeadingBullets
                (asciiDashes
                  (asciiQuotes
                    (replaceBulletGlyphs
                      (stripNonAscii
                        (mergeHyphenBreaks text)))))))))))

/-- Model of the join in the `/extract-resume` endpoint of
`resume_parser.py`, lines 37-44 (identical to the CLI aggregator). -/
def joinPages : List (Option String) → String
  | [] => ""
  | [p] => ParseResumeScript.pageText p
  | p :: ps => ParseResumeScript.pageText p ++ "\n" ++ joinPages ps

end ResumeParserApp

/-- Rules 6-11 of the pipeline (camel-case split, punctuation spacing,
separator squashing, blank-line squashing, whitespace collapse, trim): the
final rules, re-applied when the pipeline's stability is examined. -/
def finalRules (l : List Char) : List Char :=
  pyStrip
    (collapseWhitespace
      (squashNewlines
        (squashSeparators
          (punctSpace
            (camelSplit l)))))

/-- Every character of the list is 7-bit (code point at most 127). -/
def asciiOnly (l : List Char) : Prop := ∀ c ∈ l, c.toNat ≤ 127

/-- Every whitespace character of the list is a plain space. -/
def wsOnlySpace (l : List Char) : Prop := ∀ c ∈ l, isSpacePy c = true → c = ' '

/-- ASCII letters, the ranges A-Z and a-z of the regex classes `[a-z]` and
`[A-Z]`. -/
def isAsciiLetter (c : Char) : Bool :=
  (decide (65 ≤ c.toNat) && decide (c.toNat ≤ 90)) ||
  (decide (97 ≤ c.toNat) && decide (c.toNat ≤ 122))

/-- Relation between adjacent characters: not a lowercase letter directly
followed by an uppercase letter, so rule 6 has nothing to split there. -/
def Rcamel (a b : Char) : Prop := ¬(a.isLower = true ∧ b.isUpper = true)

/-- Relation between adjacent characters: sentence punctuation is followed
by whitespace, so rule 7 has nothing to space there. -/
def Rpunct (a b : Char) : Prop := isStopPunct a = true → isSpacePy b = true

/-- Relation between adjacent characters: not both in the class `p`. -/
def RnoAdj (p : Char → Bool) (a b : Char) : Prop := ¬(p a = true ∧ p b = true)

/-- No two adjacent characters of the list are both whitespace. -/
def noAdjacentWs (l : List Char) : Prop := List.Chain' (RnoAdj isSpacePy) l

/-- Executable check that no two adjacent characters are both whitespace. -/
def noAdjWsB : List Char → Bool
  | [] => true
  | [_] => true
  | a :: b :: cs => !(isSpacePy a && isSpacePy b) && noAdjWsB (b :: cs)

/-- The list neither starts nor ends with a whitespace character. -/
def strippedEnds (l : List Char) : Prop :=
  (∀ c, l.head? = some c → isSpacePy c = false) ∧
  (∀ c, l.getLast? = some c → isSpacePy c = false)

/-! Generic helpers. -/

/-- A chain relation holds along a list as soon as it holds between any
two characters satisfying a membership property. -/
theorem chain'_of_mem (pr : Char → Prop) {R : Char → Char → Prop}
    (hR : ∀ x y, pr x → pr y → R x y) :
    ∀ l : List Char, (∀ c ∈ l, pr c) → List.Chain' R l := by
  intro l
  induction l with
  | nil => intro _; exact List.chain'_nil
  | cons a as ih =>
    intro h
    refine List.chain'_cons'.2 ⟨?_, ih fun c hc => h c (List.mem_cons_of_mem _ hc)⟩
    intro y hy
    exact hR a y (h a (List.mem_cons_self _ _))
      (h y (List.mem_cons_of_mem _ (List.mem_of_mem_head? hy)))

/-- A map that fixes every member of a list fixes the list. -/
theorem map_id_on {f : Char → Char} :
    ∀ l : List Char, (∀ c ∈ l, f c = c) → l.map f = l := by
  intro l
  induction l with
  | nil => intro _; rfl
  | cons a as ih =>
    intro h
    simp only [List.map_cons, h a (List.mem_cons_self _ _),
      ih fun c hc => h c (List.mem_cons_of_mem _ hc)]

/-! Lemmas about `squash1Aux`, the scanner behind rules 2 and 10. -/

/-- Characters of a `squash1Aux` output: the replacement character, or a
kept input character outside the squashed class. -/
theorem squash1_mem {p : Char → Bool} {i c : Char} :
    ∀ (l : List Char) (b : Bool),
      c ∈ squash1Aux p [i] b l → c = i ∨ (c ∈ l ∧ p c = false) := by
  intro l
  induction l with
  | nil => intro b h; cases b <;> simp [squash1Aux] at h
  | cons a as ih =>
    intro b h
    by_cases hp : p a = true
    · cases b with
      | true =>
        rw [squash1Aux, if_pos hp] at h
        rcases ih true h with h1 | h2
        · exact Or.inl h1
        · exact Or.inr ⟨List.mem_cons_of_mem _ h2.1, h2.2⟩
      | false =>
        rw [squash1Aux, if_pos hp, List.singleton_append] at h
        rcases List.mem_cons.1 h with rfl | h'
        · exact Or.inl rfl
        · rcases ih true h' with h1 | h2
          · exact Or.inl h1
          · exact Or.inr ⟨List.mem_cons_of_mem _ h2.1, h2.2⟩
    · have hred : squash1Aux p [i] b (a :: as) = a :: squash1Aux p [i] false as := by
        cases b <;> rw [squash1Aux, if_neg hp]
      rw [hred] at h
      rcases List.mem_cons.1 h with rfl | h'
      · exact Or.inr ⟨List.mem_cons_self _ _, by simpa using hp⟩
      · rcases ih false h' with h1 | h2
        · exact Or.inl h1
        · exact Or.inr ⟨List.mem_cons_of_mem _ h2.1, h2.2⟩

/-- The head of a run-started `squash1Aux` output is the replacement
character or the input head. -/
theorem squash1_headFact {p : Char → Bool} {i : Char} :
    ∀ (l : List Char) (x : Char),
      (squash1Aux p [i] false l).head? = some x → x = i ∨ l.head? = some x := by
  intro l x h
  cases l with
  | nil => simp [squash1Aux] at h
  | cons a as =>
    by_cases hp : p a = true
    · rw [squash1Aux, if_pos hp, List.singleton_append, List.head?_cons] at h
      exact Or.inl (Option.some_injective _ h).symm
    · rw [squash1Aux, if_neg hp, List.head?_cons] at h
      exact Or.inr h

/-- While a squashed run is being consumed, the next emitted character is
outside the class. -/
theorem squash1_trueHead {p : Char → Bool} {i : Char} :
    ∀ (l : List Char) (x : Char),
      (squash1Aux p [i] true l).head? = some x → p x = false := by
  intro l
  induction l with
  | nil => intro x h; simp [squash1Aux] at h
  | cons a as ih =>
    intro x h
    by_cases hp : p a = true
    · rw [squash1Aux, if_pos hp] at h
      exact ih x h
    · rw [squash1Aux, if_neg hp, List.head?_cons] at h
      rcases Option.some_injective _ h with rfl
      simpa using hp

/-- The two scanning modes agree when the list does not open with a class
character. -/
theorem squash1_modes_agree {p : Char → Bool} {i : Char} :
    ∀ l : List Char, (∀ x, l.head? = some x → p x = false) →
      squash1Aux p [i] true l = squash1Aux p [i] false l := by
  intro l h
  cases l with
  | nil => rfl
  | cons a as =>
    have hp : p a = false := h a rfl
    rw [squash1Aux, squash1Aux, if_neg (by simp [hp]), if_neg (by simp [hp])]

/-- Run squashing preserves any chain relation for which the replacement
character is neutral on both sides. -/
theorem squash1_chainPres {p : Char → Bool} {i : Char} {R : Char → Char → Prop}
    (hiL : ∀ x, R i x) (hiR : ∀ x, R x i) :
    ∀ (l : List Char) (b : Bool),
      List.Chain' R l → List.Chain' R (squash1Aux p [i] b l) := by
  intro l
  induction l with
  | nil => intro b _; cases b <;> exact List.chain'_nil
  | cons a as ih =>
    intro b hch
    have hca : ∀ y ∈ as.head?, R a y := (List.chain'_cons'.1 hch).1
    have hct : List.Chain' R as := (List.chain'_cons'.1 hch).2
    by_cases hp : p a = true
    · cases b with
      | true =>
        rw [squash1Aux, if_pos hp]
        exact ih true hct
      | false =>
        rw [squash1Aux, if_pos hp, List.singleton_append]
        refine List.chain'_cons'.2 ⟨fun y _ => hiL y, ih true hct⟩
    · have hred : squash1Aux p [i] b (a :: as) = a :: squash1Aux p [i] false as := by
        cases b <;> rw [squash1Aux, if_neg hp]
      rw [hred]
      refine List.chain'_cons'.2 ⟨?_, ih false hct⟩
      intro y hy
      rcases squash1_headFact as y (Option.mem_def.1 hy) with rfl | h'
      · exact hiR a
      · exact hca y (Option.mem_def.2 h')

/-- A `squash1Aux` output never has two adjacent class characters. -/
theorem squash1_noAdj {p : Char → Bool} {i : Char} :
    ∀ (l : List Char) (b : Bool), List.Chain' (RnoAdj p) (squash1Aux p [i] b l) := by
  intro l
  induction l with
  | nil => intro b; cases b <;> exact List.chain'_nil
  | cons a as ih =>
    intro b
    by_cases hp : p a = true
    · cases b with
      | true => rw [squash1Aux, if_pos hp]; exact ih true
      | false =>
        rw [squash1Aux, if_pos hp, List.singleton_append]
        refine List.chain'_cons'.2 ⟨?_, ih true⟩
        intro y hy h2
        have := squash1_trueHead as y (Option.mem_def.1 hy)
        rw [this] at h2
        exact Bool.false_ne_true h2.2
    · have hred : squash1Aux p [i] b (a :: as) = a :: squash1Aux p [i] false as := by
        cases b <;> rw [squash1Aux, if_neg hp]
      rw [hred]
      refine List.chain'_cons'.2 ⟨?_, ih false⟩
      intro y _ h2
      exact hp h2.1

/-- Run squashing fixes a list whose class characters are all the
replacement character and never adjacent. -/
theorem squash1_fix {p : Char → Bool} {i : Char} :
    ∀ l : List Char, (∀ c ∈ l, p c = true → c = i) →
      List.Chain' (RnoAdj p) l → squash1Aux p [i] false l = l := by
  intro l
  induction l with
  | nil => intro _ _; rfl
  | cons a as ih =>
    intro h hch
    have hct : List.Chain' (RnoAdj p) as := (List.chain'_cons'.1 hch).2
    have htail : ∀ c ∈ as, p c = true → c = i :=
      fun c hc => h c (List.mem_cons_of_mem _ hc)
    by_cases hp : p a = true
    · have ha : a = i := h a (List.mem_cons_self _ _) hp
      have hhead : ∀ x, as.head? = some x → p x = false := by
        intro x hx
        have hax := (List.chain'_cons'.1 hch).1 x (Option.mem_def.2 hx)
        by_cases hpx : p x = true
        · exact absurd ⟨hp, hpx⟩ hax
        · simpa using hpx
      rw [squash1Aux, if_pos hp, List.singleton_append,
        squash1_modes_agree as hhead, ih htail hct, ha]
    · rw [squash1Aux, if_neg hp, ih htail hct]

/-- Run squashing keeps a nonempty list nonempty. -/
theorem squash1_ne {p : Char → Bool} {i : Char} (a : Char) (as : List Char) :
    squash1Aux p [i] false (a :: as) ≠ [] := by
  by_cases hp : p a = true
  · rw [squash1Aux, if_pos hp, List.singleton_append]
    exact List.cons_ne_nil _ _
  · rw [squash1Aux, if_neg hp]
    exact List.cons_ne_nil _ _

/-! Lemmas about `squash2Aux`, the scanner behind rules 8 and 9. -/

/-- Characters of a `squash2Aux` output: the replacement character or an
input character. -/
theorem squash2_mem {p : Char → Bool} {i c : Char} :
    ∀ (l : List Char) (b : Bool), c ∈ squash2Aux p [i] b l → c = i ∨ c ∈ l := by
  intro l
  induction l with
  | nil => intro b h; cases b <;> simp [squash2Aux] at h
  | cons a as ih =>
    intro b h
    cases as with
    | nil =>
      cases b with
      | true =>
        by_cases hp : p a = true
        · rw [squash2Aux, if_pos hp] at h
          simp at h
        · rw [squash2Aux, if_neg hp] at h
          exact Or.inr h
      | false =>
        rw [squash2Aux] at h
        exact Or.inr h
    | cons d cs =>
      have hmem : c ∈ a :: squash2Aux p [i] false (d :: cs) → c = i ∨ c ∈ a :: d :: cs := by
        intro h'
        rcases List.mem_cons.1 h' with rfl | h''
        · exact Or.inr (List.mem_cons_self _ _)
        · rcases ih false h'' with h1 | h2
          · exact Or.inl h1
          · exact Or.inr (List.mem_cons_of_mem _ h2)
      cases b with
      | true =>
        by_cases hp : p a = true
        · rw [squash2Aux, if_pos hp] at h
          rcases ih true h with h1 | h2
          · exact Or.inl h1
          · exact Or.inr (List.mem_cons_of_mem _ h2)
        · rw [squash2Aux, if_neg hp] at h
          exact hmem h
      | false =>
        by_cases hp : p a = true
        · by_cases hpd : p d = true
          · rw [squash2Aux, if_pos hp, if_pos hpd, List.singleton_append] at h
            rcases List.mem_cons.1 h with rfl | h'
            · exact Or.inl rfl
            · rcases ih true h' with h1 | h2
              · exact Or.inl h1
              · exact Or.inr (List.mem_cons_of_mem _ h2)
          · rw [squash2Aux, if_pos hp, if_neg hpd] at h
            exact hmem h
        · rw [squash2Aux, if_neg hp] at h
          exact hmem h

/-- The head of a run-started `squash2Aux` output is the replacement
character or the input head. -/
theorem squash2_headFact {p : Char → Bool} {i : Char} :
    ∀ (l : List Char) (x : Char),
      (squash2Aux p [i] false l).head? = some x → x = i ∨ l.head? = some x := by
  intro l x h
  cases l with
  | nil => simp [squash2Aux] at h
  | cons a as =>
    cases as with
    | nil =>
      rw [squash2Aux] at h
      exact Or.inr h
    | cons d cs =>
      by_cases hp : p a = true
      · by_cases hpd : p d = true
        · rw [squash2Aux, if_pos hp, if_pos hpd, List.singleton_append, List.head?_cons] at h
          exact Or.inl (Option.some_injective _ h).symm
        · rw [squash2Aux, if_pos hp, if_neg hpd, List.head?_cons] at h
          exact Or.inr h
      · rw [squash2Aux, if_neg hp, List.head?_cons] at h
        exact Or.inr h

/-- While a squashed run is being consumed, the next emitted character is
outside the class. -/
theorem squash2_trueHead {p : Char → Bool} {i : Char} :
    ∀ (l : List Char) (x : Char),
      (squash2Aux p [i] true l).head? = some x → p x = false := by
  intro l
  induction l with
  | nil => intro x h; simp [squash2Aux] at h
  | cons a as ih =>
    intro x h
    cases as with
    | nil =>
      by_cases hp : p a = true
      · rw [squash2Aux, if_pos hp] at h
        simp at h
      · rw [squash2Aux, if_neg hp, List.head?_cons] at h
        rcases Option.some_injective _ h with rfl
        simpa using hp
    | cons d cs =>
      by_cases hp : p a = true
      · rw [squash2Aux, if_pos hp] at h
        exact ih x h
      · rw [squash2Aux, if_neg hp, List.head?_cons] at h
        rcases Option.some_injective _ h with rfl
        simpa using hp

/-- Long-run squashing preserves any chain relation for which the
replacement character is neutral on both sides. -/
theorem squash2_chainPres {p : Char → Bool} {i : Char} {R : Char → Char → Prop}
    (hiL : ∀ x, R i x) (hiR : ∀ x, R x i) :
    ∀ (l : List Char) (b : Bool),
      List.Chain' R l → List.Chain' R (squash2Aux p [i] b l) := by
  intro l
  induction l with
  | nil => intro b _; cases b <;> exact List.chain'_nil
  | cons a as ih =>
    intro b hch
    cases as with
    | nil =>
      cases b with
      | true =>
        by_cases hp : p a = true
        · rw [squash2Aux, if_pos hp]; exact List.chain'_nil
        · rw [squash2Aux, if_neg hp]; exact List.chain'_singleton _
      | false =>
        rw [squash2Aux]; exact List.chain'_singleton _
    | cons d cs =>
      have hct : List.Chain' R (d :: cs) := (List.chain'_cons'.1 hch).2
      have hRad : R a d := (List.chain'_cons'.1 hch).1 d (Option.mem_def.2 rfl)
      have hcons : List.Chain' R (a :: squash2Aux p [i] false (d :: cs)) := by
        refine List.chain'_cons'.2 ⟨?_, ih false hct⟩
        intro y hy
        rcases squash2_headFact (d :: cs) y (Option.mem_def.1 hy) with rfl | h'
        · exact hiR a
        · rw [List.head?_cons] at h'
          rcases Option.some_injective _ h' with rfl
          exact hRad
      cases b with
      | true =>
        by_cases hp : p a = true
        · rw [squash2Aux, if_pos hp]; exact ih true hct
        · rw [squash2Aux, if_neg hp]; exact hcons
      | false =>
        by_cases hp : p a = true
        · by_cases hpd : p d = true
          · rw [squash2Aux, if_pos hp, if_pos hpd, List.singleton_append]
            exact List.chain'_cons'.2 ⟨fun y _ => hiL y, ih true hct⟩
          · rw [squash2Aux, if_pos hp, if_neg hpd]; exact hcons
        · rw [squash2Aux, if_neg hp]; exact hcons

/-- When the replacement character is outside the class, a `squash2Aux`
output never has two adjacent class characters. -/
theorem squash2_noAdj {p : Char → Bool} {i : Char} (hpi : p i = false) :
    ∀ (l : List Char) (b : Bool), List.Chain' (RnoAdj p) (squash2Aux p [i] b l) := by
  intro l
  induction l with
  | nil => intro b; cases b <;> exact List.chain'_nil
  | cons a as ih =>
    intro b
    cases as with
    | nil =>
      cases b with
      | true =>
        by_cases hp : p a = true
        · rw [squash2Aux, if_pos hp]; exact List.chain'_nil
        · rw [squash2Aux, if_neg hp]; exact List.chain'_singleton _
      | false =>
        rw [squash2Aux]; exact List.chain'_singleton _
    | cons d cs =>
      have hconsNoP : p a = false →
          List.Chain' (RnoAdj p) (a :: squash2Aux p [i] false (d :: cs)) := by
        intro hp
        refine List.chain'_cons'.2 ⟨?_, ih false⟩
        intro y _ h2
        rw [hp] at h2
        exact Bool.false_ne_true h2.1
      cases b with
      | true =>
        by_cases hp : p a = true
        · rw [squash2Aux, if_pos hp]; exact ih true
        · rw [squash2Aux, if_neg hp]; exact hconsNoP (by simpa using hp)
      | false =>
        by_cases hp : p a = true
        · by_cases hpd : p d = true
          · rw [squash2Aux, if_pos hp, if_pos hpd, List.singleton_append]
            refine List.chain'_cons'.2 ⟨?_, ih true⟩
            intro y _ h2
            rw [hpi] at h2
            exact Bool.false_ne_true h2.1
          · rw [squash2Aux, if_pos hp, if_neg hpd]
            refine List.chain'_cons'.2 ⟨?_, ih false⟩
            intro y hy h2
            rcases squash2_headFact (d :: cs) y (Option.mem_def.1 hy) with rfl | h'
            · rw [hpi] at h2
              exact Bool.false_ne_true h2.2
            · rw [List.head?_cons] at h'
              rcases Option.some_injective _ h' with rfl
              exact hpd h2.2
        · rw [squash2Aux, if_neg hp]
          exact hconsNoP (by simpa using hp)

/-- Long-run squashing fixes a list with no two adjacent class
characters. -/
theorem squash2_fix {p : Char → Bool} {i : Char} :
    ∀ l : List Char, List.Chain' (RnoAdj p) l → squash2Aux p [i] false l = l := by
  intro l
  induction l with
  | nil => intro _; rfl
  | cons a as ih =>
    intro hch
    cases as with
    | nil => rw [squash2Aux]
    | cons d cs =>
      have hct := (List.chain'_cons'.1 hch).2
      have hRad : RnoAdj p a d := (List.chain'_cons'.1 hch).1 d (Option.mem_def.2 rfl)
      by_cases hp : p a = true
      · have hpd : p d = false := by
          by_cases h : p d = true
          · exact absurd ⟨hp, h⟩ hRad
          · simpa using h
        rw [squash2Aux, if_pos hp, if_neg (by simp [hpd]), ih hct]
      · rw [squash2Aux, if_neg hp, ih hct]

/-! Lemmas about `punctSpace` (rule 7) and `camelSplit` (rule 6). -/

/-- Punctuation spacing keeps the first character. -/
theorem pu_head : ∀ l : List Char, (punctSpace l).head? = l.head? := by
  intro l
  cases l with
  | nil => rfl
  | cons a as =>
    cases as with
    | nil => rfl
    | cons d cs =>
      by_cases hc : (isStopPunct a && !isSpacePy d) = true
      · rw [punctSpace, if_pos hc]; rfl
      · rw [punctSpace, if_neg hc]; rfl

/-- Characters of a `punctSpace` output: a space or an input character. -/
theorem pu_mem {c : Char} : ∀ l : List Char, c ∈ punctSpace l → c = ' ' ∨ c ∈ l := by
  intro l
  induction l with
  | nil => intro h; simp [punctSpace] at h
  | cons a as ih =>
    intro h
    cases as with
    | nil =>
      rw [punctSpace] at h
      exact Or.inr h
    | cons d cs =>
      by_cases hc : (isStopPunct a && !isSpacePy d) = true
      · rw [punctSpace, if_pos hc] at h
        rcases List.mem_cons.1 h with rfl | h'
        · exact Or.inr (List.mem_cons_self _ _)
        · rcases List.mem_cons.1 h' with rfl | h''
          · exact Or.inl rfl
          · rcases ih h'' with h1 | h1
            · exact Or.inl h1
            · exact Or.inr (List.mem_cons_of_mem _ h1)
      · rw [punctSpace, if_neg hc] at h
        rcases List.mem_cons.1 h with rfl | h'
        · exact Or.inr (List.mem_cons_self _ _)
        · rcases ih h' with h1 | h1
          · exact Or.inl h1
          · exact Or.inr (List.mem_cons_of_mem _ h1)

/-- Punctuation spacing preserves any chain relation for which the space
character is neutral on both sides. -/
theorem pu_chainPres {R : Char → Char → Prop}
    (hiL : ∀ x, R ' ' x) (hiR : ∀ x, R x ' ') :
    ∀ l : List Char, List.Chain' R l → List.Chain' R (punctSpace l) := by
  intro l
  induction l with
  | nil => intro _; exact List.chain'_nil
  | cons a as ih =>
    intro hch
    cases as with
    | nil => exact List.chain'_singleton _
    | cons d cs =>
      have hct : List.Chain' R (d :: cs) := (List.chain'_cons'.1 hch).2
      have hRad : R a d := (List.chain'_cons'.1 hch).1 d (Option.mem_def.2 rfl)
      by_cases hc : (isStopPunct a && !isSpacePy d) = true
      · rw [punctSpace, if_pos hc]
        refine List.chain'_cons'.2 ⟨?_, List.chain'_cons'.2 ⟨fun y _ => hiL y, ih hct⟩⟩
        intro y hy
        have h' := Option.mem_def.1 hy
        rw [List.head?_cons] at h'
        rcases Option.some_injective _ h' with rfl
        exact hiR a
      · rw [punctSpace, if_neg hc]
        refine List.chain'_cons'.2 ⟨?_, ih hct⟩
        intro y hy
        have h' := Option.mem_def.1 hy
        rw [pu_head (d :: cs), List.head?_cons] at h'
        rcases Option.some_injective _ h' with rfl
        exact hRad

/-- After punctuation spacing, every stop-punctuation character is
followed by whitespace or ends the text. -/
theorem pu_est : ∀ l : List Char, List.Chain' Rpunct (punctSpace l) := by
  intro l
  induction l with
  | nil => exact List.chain'_nil
  | cons a as ih =>
    cases as with
    | nil => exact List.chain'_singleton _
    | cons d cs =>
      by_cases hc : (isStopPunct a && !isSpacePy d) = true
      · rw [punctSpace, if_pos hc]
        refine List.chain'_cons'.2 ⟨?_, List.chain'_cons'.2 ⟨?_, ih⟩⟩
        · intro y hy
          have h' := Option.mem_def.1 hy
          rw [List.head?_cons] at h'
          rcases Option.some_injective _ h' with rfl
          intro _
          decide
        · intro y _ h'
          exact absurd h' (by decide)
      · rw [punctSpace, if_neg hc]
        refine List.chain'_cons'.2 ⟨?_, ih⟩
        intro y hy
        have h' := Option.mem_def.1 hy
        rw [pu_head (d :: cs), List.head?_cons] at h'
        rcases Option.some_injective _ h' with rfl
        intro hpa
        by_cases hd : isSpacePy d = true
        · exact hd
        · have hd' : isSpacePy d = false := by simpa using hd
          have : (isStopPunct a && !isSpacePy d) = true := by rw [hpa, hd']; rfl
          exact absurd this hc

/-- Punctuation spacing fixes a list in which stop punctuation is already
followed by whitespace. -/
theorem pu_fix : ∀ l : List Char, List.Chain' Rpunct l → punctSpace l = l := by
  intro l
  induction l with
  | nil => intro _; rfl
  | cons a as ih =>
    intro hch
    cases as with
    | nil => rw [punctSpace]
    | cons d cs =>
      have hct : List.Chain' Rpunct (d :: cs) := (List.chain'_cons'.1 hch).2
      have hRad : Rpunct a d := (List.chain'_cons'.1 hch).1 d (Option.mem_def.2 rfl)
      have hcond : (isStopPunct a && !isSpacePy d) = false := by
        by_cases hpa : isStopPunct a = true
        · rw [hpa, hRad hpa]; rfl
        · have hpa' : isStopPunct a = false := by simpa using hpa
          rw [hpa']; rfl
      rw [punctSpace, if_neg (by simp [hcond]), ih hct]

/-- Camel-case splitting keeps the first character. -/
theorem ca_head : ∀ l : List Char, (camelSplit l).head? = l.head? := by
  intro l
  cases l with
  | nil => rfl
  | cons a as =>
    cases as with
    | nil => rfl
    | cons d cs =>
      by_cases hc : (a.isLower && d.isUpper) = true
      · rw [camelSplit, if_pos hc]; rfl
      · rw [camelSplit, if_neg hc]; rfl

/-- Characters of a `camelSplit` output: a space or an input character. -/
theorem ca_mem {c : Char} : ∀ l : List Char, c ∈ camelSplit l → c = ' ' ∨ c ∈ l := by
  intro l
  induction l with
  | nil => intro h; simp [camelSplit] at h
  | cons a as ih =>
    intro h
    cases as with
    | nil =>
      rw [camelSplit] at h
      exact Or.inr h
    | cons d cs =>
      by_cases hc : (a.isLower && d.isUpper) = true
      · rw [camelSplit, if_pos hc] at h
        rcases List.mem_cons.1 h with rfl | h'
        · exact Or.inr (List.mem_cons_self _ _)
        · rcases List.mem_cons.1 h' with rfl | h''
          · exact Or.inl rfl
          · rcases ih h'' with h1 | h1
            · exact Or.inl h1
            · exact Or.inr (List.mem_cons_of_mem _ h1)
      · rw [camelSplit, if_neg hc] at h
        rcases List.mem_cons.1 h with rfl | h'
        · exact Or.inr (List.mem_cons_self _ _)
        · rcases ih h' with h1 | h1
          · exact Or.inl h1
          · exact Or.inr (List.mem_cons_of_mem _ h1)

/-- After camel-case splitting, no lowercase letter is directly followed
by an uppercase letter. -/
theorem ca_est : ∀ l : List Char, List.Chain' Rcamel (camelSplit l) := by
  intro l
  induction l with
  | nil => exact List.chain'_nil
  | cons a as ih =>
    cases as with
    | nil => exact List.chain'_singleton _
    | cons d cs =>
      by_cases hc : (a.isLower && d.isUpper) = true
      · rw [camelSplit, if_pos hc]
        refine List.chain'_cons'.2 ⟨?_, List.chain'_cons'.2 ⟨?_, ih⟩⟩
        · intro y hy
          have h' := Option.mem_def.1 hy
          rw [List.head?_cons] at h'
          rcases Option.some_injective _ h' with rfl
          intro h2
          exact absurd h2.2 (by decide)
        · intro y _ h2
          exact absurd h2.1 (by decide)
      · rw [camelSplit, if_neg hc]
        refine List.chain'_cons'.2 ⟨?_, ih⟩
        intro y hy
        have h' := Option.mem_def.1 hy
        rw [ca_head (d :: cs), List.head?_cons] at h'
        rcases Option.some_injective _ h' with rfl
        intro h2
        exact hc (by rw [h2.1, h2.2]; rfl)

/-- Camel-case splitting fixes a list with no lowercase-uppercase
adjacency. -/
theorem ca_fix : ∀ l : List Char, List.Chain' Rcamel l → camelSplit l = l := by
  intro l
  induction l with
  | nil => intro _; rfl
  | cons a as ih =>
    intro hch
    cases as with
    | nil => rw [camelSplit]
    | cons d cs =>
      have hct : List.Chain' Rcamel (d :: cs) := (List.chain'_cons'.1 hch).2
      have hRad : Rcamel a d := (List.chain'_cons'.1 hch).1 d (Option.mem_def.2 rfl)
      have hcond : (a.isLower && d.isUpper) = false := by
        by_cases hl : a.isLower = true
        · by_cases hu : d.isUpper = true
          · exact absurd ⟨hl, hu⟩ hRad
          · have hu' : d.isUpper = false := by simpa using hu
            simp [hu']
        · have hl' : a.isLower = false := by simpa using hl
          simp [hl']
      rw [camelSplit, if_neg (by simp [hcond]), ih hct]

/-! Lemmas about `leadAux` (rule 5) and `hmAux` (rule 1). -/

/-- Characters of a `leadAux` output: the marker characters or an input
character. -/
theorem la_mem {c : Char} :
    ∀ (l : List Char) (s a : Bool),
      c ∈ leadAux s a l → c = '-' ∨ c = ' ' ∨ c ∈ l := by
  intro l
  induction l with
  | nil => intro s a h; cases s <;> cases a <;> simp [leadAux] at h
  | cons x xs ih =>
    intro s a h
    have hcons : c ∈ x :: leadAux false (x == '\n') xs → c = '-' ∨ c = ' ' ∨ c ∈ x :: xs := by
      intro h'
      rcases List.mem_cons.1 h' with rfl | h''
      · exact Or.inr (Or.inr (List.mem_cons_self _ _))
      · rcases ih false (x == '\n') h'' with h1 | h1 | h1
        · exact Or.inl h1
        · exact Or.inr (Or.inl h1)
        · exact Or.inr (Or.inr (List.mem_cons_of_mem _ h1))
    have hskip : c ∈ leadAux true false xs → c = '-' ∨ c = ' ' ∨ c ∈ x :: xs := by
      intro h'
      rcases ih true false h' with h1 | h1 | h1
      · exact Or.inl h1
      · exact Or.inr (Or.inl h1)
      · exact Or.inr (Or.inr (List.mem_cons_of_mem _ h1))
    cases s with
    | true =>
      by_cases hcl : leadClass x = true
      · rw [leadAux, if_pos hcl] at h
        exact hskip h
      · rw [leadAux, if_neg hcl] at h
        exact hcons h
    | false =>
      cases a with
      | true =>
        by_cases hcl : leadClass x = true
        · rw [leadAux, if_pos hcl] at h
          rcases List.mem_cons.1 h with rfl | h'
          · exact Or.inl rfl
          · rcases List.mem_cons.1 h' with rfl | h''
            · exact Or.inr (Or.inl rfl)
            · exact hskip h''
        · rw [leadAux, if_neg hcl] at h
          exact hcons h
      | false =>
        rw [leadAux] at h
        exact hcons h

/-- The leading-bullet scanner fixes a list containing no class
character. -/
theorem la_fix :
    ∀ (l : List Char) (s a : Bool),
      (∀ c ∈ l, leadClass c = false) → leadAux s a l = l := by
  intro l
  induction l with
  | nil => intro s a _; cases s <;> cases a <;> rfl
  | cons x xs ih =>
    intro s a h
    have hx : leadClass x = false := h x (List.mem_cons_self _ _)
    have hrec : leadAux false (x == '\n') xs = xs :=
      ih false (x == '\n') fun c hc => h c (List.mem_cons_of_mem _ hc)
    cases s with
    | true => rw [leadAux, if_neg (by simp [hx]), hrec]
    | false =>
      cases a with
      | true => rw [leadAux, if_neg (by simp [hx]), hrec]
      | false => rw [leadAux, hrec]

/-- In skipping mode the leading-bullet scanner erases a list made only of
class characters. -/
theorem la_skipAll :
    ∀ l : List Char, (∀ c ∈ l, leadClass c = true) → leadAux true false l = [] := by
  intro l
  induction l with
  | nil => intro _; rfl
  | cons x xs ih =>
    intro h
    rw [leadAux, if_pos (h x (List.mem_cons_self _ _))]
    exact ih fun c hc => h c (List.mem_cons_of_mem _ hc)

/-- The hyphen-merge scanner fixes a list containing no hyphen. -/
theorem hm_noDash : ∀ (l : List Char) (u : Bool), '-' ∉ l → hmAux u l = l := by
  intro l
  induction l with
  | nil => intro u _; rfl
  | cons c cs ih =>
    intro u h
    have hc : '-' ∉ cs := fun hmem => h (List.mem_cons_of_mem _ hmem)
    match cs, ih, hc with
    | [], _, _ => rfl
    | [d1], _, _ => rfl
    | [d1, d2], _, _ => rfl
    | d1 :: d2 :: d3 :: ds, ih, hc =>
      have hd1 : (d1 == '-') = false := by
        rw [beq_eq_false_iff_ne]
        intro hEq
        exact h (by rw [hEq] at *; exact List.mem_cons_of_mem _ (List.mem_cons_self _ _))
      simp only [hmAux, hd1, Bool.false_and, Bool.false_eq_true, if_false]
      rw [ih _ hc]

/-! Lemmas about `pyStrip` (rule 11). -/

/-- The head of a `dropWhile` result fails the predicate. -/
theorem head_dropWhile_not {p : Char → Bool} :
    ∀ (l : List Char) (c : Char), (l.dropWhile p).head? = some c → p c = false := by
  intro l
  induction l with
  | nil => intro c h; simp at h
  | cons a as ih =>
    intro c h
    by_cases hp : p a = true
    · rw [List.dropWhile_cons, if_pos hp] at h
      exact ih c h
    · rw [List.dropWhile_cons, if_neg hp] at h
      rw [List.head?_cons] at h
      rcases Option.some_injective _ h with rfl
      simpa using hp

/-- Stripping only removes characters. -/
theorem ps_mem {c : Char} : ∀ l : List Char, c ∈ pyStrip l → c ∈ l := by
  intro l h
  simp only [pyStrip] at h
  rw [List.mem_reverse] at h
  have h1 := (List.dropWhile_suffix isSpacePy).sublist.subset h
  rw [List.mem_reverse] at h1
  exact (List.dropWhile_suffix isSpacePy).sublist.subset h1

/-- Stripping preserves every chain relation. -/
theorem ps_chainPres {R : Char → Char → Prop} :
    ∀ l : List Char, List.Chain' R l → List.Chain' R (pyStrip l) := by
  intro l h
  simp only [pyStrip]
  have h1 : List.Chain' R (l.dropWhile isSpacePy) :=
    h.suffix (List.dropWhile_suffix _)
  have h2 : List.Chain' (flip R) ((l.dropWhile isSpacePy).reverse) :=
    List.chain'_reverse.2 h1
  have h3 : List.Chain' (flip R) ((l.dropWhile isSpacePy).reverse.dropWhile isSpacePy) :=
    h2.suffix (List.dropWhile_suffix _)
  exact List.chain'_reverse.2 h3

/-- A stripped list neither starts nor ends with whitespace. -/
theorem ps_stripped : ∀ l : List Char, strippedEnds (pyStrip l) := by
  intro l
  constructor
  · intro c hc
    simp only [pyStrip] at hc
    rw [List.head?_reverse] at hc
    have hBne : (l.dropWhile isSpacePy).reverse.dropWhile isSpacePy ≠ [] := by
      intro hnil
      rw [hnil] at hc
      simp at hc
    have hsuf : (l.dropWhile isSpacePy).reverse.dropWhile isSpacePy <:+
        (l.dropWhile isSpacePy).reverse := List.dropWhile_suffix isSpacePy
    obtain ⟨t, ht⟩ := hsuf
    have h2 : ((l.dropWhile isSpacePy).reverse).getLast? = some c := by
      rw [← ht, List.getLast?_append_of_ne_nil _ hBne]
      exact hc
    rw [List.getLast?_reverse] at h2
    exact head_dropWhile_not _ _ h2
  · intro c hc
    simp only [pyStrip] at hc
    rw [List.getLast?_reverse] at hc
    exact head_dropWhile_not _ _ hc

/-- Stripping fixes a list that neither starts nor ends with
whitespace. -/
theorem ps_fix : ∀ l : List Char, strippedEnds l → pyStrip l = l := by
  intro l h
  obtain ⟨h1, h2⟩ := h
  have e1 : l.dropWhile isSpacePy = l := by
    cases l with
    | nil => rfl
    | cons a as =>
      rw [List.dropWhile_cons, if_neg (by simp [h1 a rfl])]
  have e2 : l.reverse.dropWhile isSpacePy = l.reverse := by
    cases hrev : l.reverse with
    | nil => rfl
    | cons a as =>
      have hLast : l.getLast? = some a := by
        rw [← List.head?_reverse, hrev, List.head?_cons]
      rw [List.dropWhile_cons, if_neg (by simp [h2 a hLast])]
  simp only [pyStrip, e1, e2, List.reverse_reverse]

/-! Character-class facts and map-rule helpers. -/

/-- Python whitespace in the 7-bit range has a code point of at most 32
(the separator controls 28-31 and the classic blanks). -/
theorem isSpacePy_toNat_le {c : Char} (h : isSpacePy c = true) : c.toNat ≤ 32 := by
  simp only [isSpacePy, Bool.or_eq_true, beq_iff_eq, Bool.and_eq_true,
    decide_eq_true_eq, or_assoc] at h
  rcases h with h | h | h | h | h | h | ⟨h1, h2⟩
  · subst h; decide
  · subst h; decide
  · subst h; decide
  · subst h; decide
  · subst h; decide
  · subst h; decide
  · omega

/-- Every bullet glyph of rule 3 lies outside the 7-bit range. -/
theorem bullet_nonAscii {c : Char} (h : isBulletGlyph c = true) : isNonAscii c = true := by
  simp only [isBulletGlyph, Bool.or_eq_true, beq_iff_eq, or_assoc] at h
  rcases h with h | h | h | h | h | h | h | h | h <;> subst h <;> decide

/-- Rule 3 fixes every 7-bit character. -/
theorem bulletSub_ascii {c : Char} (h : c.toNat ≤ 127) : bulletSub c = c := by
  have hb : isBulletGlyph c = false := by
    by_cases hbb : isBulletGlyph c = true
    · have := bullet_nonAscii hbb
      simp only [isNonAscii, decide_eq_true_eq] at this
      omega
    · simpa using hbb
  simp [bulletSub, hb]

/-- The quote-replacement of rule 4 fixes every 7-bit character. -/
theorem quoteSub_ascii {c : Char} (h : c.toNat ≤ 127) : quoteSub c = c := by
  have h1 : c ≠ '“' := by intro h'; subst h'; revert h; decide
  have h2 : c ≠ '”' := by intro h'; subst h'; revert h; decide
  have h3 : c ≠ '‘' := by intro h'; subst h'; revert h; decide
  have h4 : c ≠ '’' := by intro h'; subst h'; revert h; decide
  simp [quoteSub, h1, h2, h3, h4]

/-- The dash-replacement of rule 4 fixes every 7-bit character. -/
theorem dashSub_ascii {c : Char} (h : c.toNat ≤ 127) : dashSub c = c := by
  have h1 : c ≠ '–' := by intro h'; subst h'; revert h; decide
  have h2 : c ≠ '—' := by intro h'; subst h'; revert h; decide
  simp [dashSub, h1, h2]

/-- Rules 3 and 4 fix every list of 7-bit characters. -/
theorem maps_fix_ascii {l : List Char} (h : ∀ c ∈ l, c.toNat ≤ 127) :
    replaceBulletGlyphs l = l ∧ asciiQuotes l = l ∧ asciiDashes l = l := by
  refine ⟨map_id_on _ ?_, map_id_on _ ?_, map_id_on _ ?_⟩
  · intro c hc; exact bulletSub_ascii (h c hc)
  · intro c hc; exact quoteSub_ascii (h c hc)
  · intro c hc; exact dashSub_ascii (h c hc)

/-- Run squashing fixes a list with no class character at all. -/
theorem squash1_fix_noP {p : Char → Bool} {i : Char} :
    ∀ l : List Char, (∀ c ∈ l, p c = false) → squash1Aux p [i] false l = l := by
  intro l h
  refine squash1_fix l (fun c hc hpc => absurd hpc (by simp [h c hc])) ?_
  exact chain'_of_mem (fun c => p c = false)
    (fun x y hx _ h2 => absurd h2.1 (by simp [hx])) l h

/-! Invariants of the cleaned output. -/

/-- Every character of a cleaned text is 7-bit. -/
theorem clean_ascii : ∀ l : List Char, asciiOnly (ParseResumeScript.clean_text l) := by
  intro l c hc
  have h10 := ps_mem _ hc
  rcases squash1_mem _ _ h10 with rfl | ⟨h9, _⟩
  · decide
  rcases squash2_mem _ _ h9 with rfl | h8
  · decide
  rcases squash2_mem _ _ h8 with rfl | h7
  · decide
  rcases pu_mem _ h7 with rfl | h6
  · decide
  rcases ca_mem _ h6 with rfl | h5
  · decide
  rcases la_mem _ _ _ h5 with rfl | rfl | h4
  · decide
  · decide
  simp only [asciiDashes] at h4
  rcases List.mem_map.1 h4 with ⟨c3, h3, rfl⟩
  simp only [asciiQuotes] at h3
  rcases List.mem_map.1 h3 with ⟨c2, h2, rfl⟩
  simp only [replaceBulletGlyphs] at h2
  rcases List.mem_map.1 h2 with ⟨c1, h1, rfl⟩
  have hA : c1.toNat ≤ 127 := by
    rcases squash1_mem _ _ h1 with rfl | ⟨_, hpf⟩
    · decide
    · have : ¬(127 < c1.toNat) := by simpa [isNonAscii] using hpf
      omega
  rw [bulletSub_ascii hA, quoteSub_ascii hA, dashSub_ascii hA]
  exact hA

/-- Every whitespace character of a cleaned text is a plain space. -/
theorem clean_wsOnly : ∀ l : List Char, wsOnlySpace (ParseResumeScript.clean_text l) := by
  intro l c hc hws
  have h10 := ps_mem _ hc
  rcases squash1_mem _ _ h10 with rfl | ⟨_, hpf⟩
  · rfl
  · exact absurd hws (by simp [hpf])

/-- A cleaned text has no two adjacent whitespace characters. -/
theorem clean_noAdjWs : ∀ l : List Char, noAdjacentWs (ParseResumeScript.clean_text l) :=
  fun _ => ps_chainPres _ (squash1_noAdj _ _)

/-- A cleaned text neither starts nor ends with whitespace. -/
theorem clean_stripped : ∀ l : List Char, strippedEnds (ParseResumeScript.clean_text l) :=
  fun _ => ps_stripped _

/-- A cleaned text has no lowercase letter directly followed by an
uppercase letter. -/
theorem clean_camelChain :
    ∀ l : List Char, List.Chain' Rcamel (ParseResumeScript.clean_text l) := by
  intro l
  refine ps_chainPres _ ?_
  refine squash1_chainPres (fun x h => absurd h.1 (by decide))
    (fun x h => absurd h.2 (by decide)) _ _ ?_
  refine squash2_chainPres (fun x h => absurd h.1 (by decide))
    (fun x h => absurd h.2 (by decide)) _ _ ?_
  refine squash2_chainPres (fun x h => absurd h.1 (by decide))
    (fun x h => absurd h.2 (by decide)) _ _ ?_
  refine pu_chainPres (fun x h => absurd h.1 (by decide))
    (fun x h => absurd h.2 (by decide)) _ ?_
  exact ca_est _

/-- In a cleaned text, every stop-punctuation character is followed by
whitespace or ends the text. -/
theorem clean_punctChain :
    ∀ l : List Char, List.Chain' Rpunct (ParseResumeScript.clean_text l) := by
  intro l
  refine ps_chainPres _ ?_
  refine squash1_chainPres (fun x h => absurd h (by decide))
    (fun x _ => by decide) _ _ ?_
  refine squash2_chainPres (fun x h => absurd h (by decide))
    (fun x _ => by decide) _ _ ?_
  refine squash2_chainPres (fun x h => absurd h (by decide))
    (fun x _ => by decide) _ _ ?_
  exact pu_est _

/-- A cleaned text has no two adjacent separator characters. -/
theorem clean_sepChain :
    ∀ l : List Char, List.Chain' (RnoAdj isSepChar) (ParseResumeScript.clean_text l) := by
  intro l
  refine ps_chainPres _ ?_
  refine squash1_chainPres (fun x h => absurd h.1 (by decide))
    (fun x h => absurd h.2 (by decide)) _ _ ?_
  refine squash2_chainPres (fun x h => absurd h.1 (by decide))
    (fun x h => absurd h.2 (by decide)) _ _ ?_
  exact squash2_noAdj (by decide) _ _

/-- A cleaned text contains no line break. -/
theorem clean_noNl :
    ∀ (l : List Char), ∀ c ∈ ParseResumeScript.clean_text l, isNewlineChar c = false := by
  intro l c hc
  by_cases hnl : c = '\n'
  · subst hnl
    exact absurd (clean_wsOnly l _ hc (by decide)) (by decide)
  · simp [isNewlineChar, hnl]

/-- C2 (amended): for every input, the cleaned output contains no
character above the 7-bit range, every whitespace character in it is a
plain space, no two adjacent characters are both whitespace, and it
neither starts nor ends with whitespace.  (The original claim's "no
control characters" part is false: 7-bit control characters such as NUL
survive every rule, see the counterexample.) -/
theorem c2_output_charset :
    ∀ l : List Char,
      asciiOnly (ParseResumeScript.clean_text l) ∧
      wsOnlySpace (ParseResumeScript.clean_text l) ∧
      noAdjacentWs (ParseResumeScript.clean_text l) ∧
      strippedEnds (ParseResumeScript.clean_text l) :=
  fun l => ⟨clean_ascii l, clean_wsOnly l, clean_noAdjWs l, clean_stripped l⟩

/-- C2 witness: the guarantees instantiated at a concrete input. -/
theorem c2_output_charset_witness :
    asciiOnly (ParseResumeScript.clean_text "Data  Science\n\nteam".data) ∧
    wsOnlySpace (ParseResumeScript.clean_text "Data  Science\n\nteam".data) ∧
    noAdjacentWs (ParseResumeScript.clean_text "Data  Science\n\nteam".data) ∧
    strippedEnds (ParseResumeScript.clean_text "Data  Science\n\nteam".data) :=
  c2_output_charset _

/-- C5 (amended): the final rules 6-11 (camel-case split, punctuation
spacing, separator squashing, blank-line squashing, whitespace collapse,
trim) are stable on every cleaned output — re-applying them changes
nothing.  The full eleven-rule pipeline itself is not idempotent (see the
counterexample): its rule 5 can still rewrite a cleaned output whose
leading "- " marker is followed by an asterisk or similar class
character. -/
theorem c5_final_rules_stable :
    ∀ l : List Char,
      finalRules (ParseResumeScript.clean_text l) = ParseResumeScript.clean_text l := by
  intro l
  have e1 : camelSplit (ParseResumeScript.clean_text l) = ParseResumeScript.clean_text l :=
    ca_fix _ (clean_camelChain l)
  have e2 : punctSpace (ParseResumeScript.clean_text l) = ParseResumeScript.clean_text l :=
    pu_fix _ (clean_punctChain l)
  have e3 : squashSeparators (ParseResumeScript.clean_text l) = ParseResumeScript.clean_text l :=
    squash2_fix _ (clean_sepChain l)
  have e4 : squashNewlines (ParseResumeScript.clean_text l) = ParseResumeScript.clean_text l :=
    squash2_fix _ (chain'_of_mem (fun c => isNewlineChar c = false)
      (fun x _ hx _ h2 => absurd h2.1 (by simp [hx])) _ (clean_noNl l))
  have e5 : collapseWhitespace (ParseResumeScript.clean_text l) = ParseResumeScript.clean_text l :=
    squash1_fix _ (clean_wsOnly l) (clean_noAdjWs l)
  have e6 : pyStrip (ParseResumeScript.clean_text l) = ParseResumeScript.clean_text l :=
    ps_fix _ (clean_stripped l)
  show pyStrip (collapseWhitespace (squashNewlines (squashSeparators
    (punctSpace (camelSplit (ParseResumeScript.clean_text l)))))) =
    ParseResumeScript.clean_text l
  rw [e1, e2, e3, e4, e5, e6]

/-! Facts about ASCII letters, used by the indentation claim. -/

/-- Code-point bounds for ASCII letters. -/
theorem letter_bounds {c : Char} (h : isAsciiLetter c = true) :
    65 ≤ c.toNat ∧ c.toNat ≤ 122 := by
  simp only [isAsciiLetter, Bool.or_eq_true, Bool.and_eq_true, decide_eq_true_eq] at h
  rcases h with ⟨h1, h2⟩ | ⟨h1, h2⟩ <;> omega

/-- Letters are not whitespace. -/
theorem letter_not_ws {c : Char} (h : isAsciiLetter c = true) : isSpacePy c = false := by
  by_cases hws : isSpacePy c = true
  · exact absurd (letter_bounds h).1 (by have := isSpacePy_toNat_le hws; omega)
  · simpa using hws

/-- A letter differs from every non-letter character. -/
theorem letter_ne {c x : Char} (h : isAsciiLetter c = true)
    (hx : isAsciiLetter x = false) : c ≠ x := by
  intro h'
  subst h'
  rw [h] at hx
  exact Bool.noConfusion hx

/-- Letters are outside the leading-run class of rule 5. -/
theorem letter_not_leadClass {c : Char} (h : isAsciiLetter c = true) :
    leadClass c = false := by
  have hws := letter_not_ws h
  have h1 : c ≠ '-' := letter_ne h (by decide)
  have h2 : c ≠ '•' := letter_ne h (by decide)
  have h3 : c ≠ '●' := letter_ne h (by decide)
  have h4 : c ≠ '◦' := letter_ne h (by decide)
  have h5 : c ≠ '*' := letter_ne h (by decide)
  simp [leadClass, hws, h1, h2, h3, h4, h5]

/-- Letters are not stop punctuation. -/
theorem letter_not_punct {c : Char} (h : isAsciiLetter c = true) :
    isStopPunct c = false := by
  have h1 : c ≠ '.' := letter_ne h (by decide)
  have h2 : c ≠ ',' := letter_ne h (by decide)
  have h3 : c ≠ ':' := letter_ne h (by decide)
  have h4 : c ≠ ';' := letter_ne h (by decide)
  have h5 : c ≠ '!' := letter_ne h (by decide)
  have h6 : c ≠ '?' := letter_ne h (by decide)
  simp [isStopPunct, h1, h2, h3, h4, h5, h6]

/-- Letters are not separator characters. -/
theorem letter_not_sep {c : Char} (h : isAsciiLetter c = true) :
    isSepChar c = false := by
  have h1 : c ≠ '-' := letter_ne h (by decide)
  have h2 : c ≠ '=' := letter_ne h (by decide)
  simp [isSepChar, h1, h2]

/-- Letters are not the line-break character. -/
theorem letter_not_nl {c : Char} (h : isAsciiLetter c = true) :
    isNewlineChar c = false := by
  have h1 : c ≠ '\n' := letter_ne h (by decide)
  simp [isNewlineChar, h1]

/-- C6: applying the full pipeline to the raw input "inter-\nnational"
(word characters, hyphen, line-break, word characters) yields exactly
"international", with no embedded hyphen and no line-break in the
result. -/
theorem c6_hyphen_merge :
    ParseResumeScript.clean_text "inter-\nnational".data = "international".data ∧
    '-' ∉ ParseResumeScript.clean_text "inter-\nnational".data ∧
    '\n' ∉ ParseResumeScript.clean_text "inter-\nnational".data := by decide

/-- C7: on the empty input string the pipeline returns the empty string,
and an extraction yielding zero pages likewise produces the empty cleaned
result. -/
theorem c7_empty_input :
    ParseResumeScript.clean_text [] = [] ∧ ParseResumeScript.extract_resume [] = "" :=
  ⟨rfl, rfl⟩

/-- C1 counterexample: on the spec's two-page scenario the pipeline does
not produce "Experience - Software Engineer Education BA Computer
Science"; the blank-line run before "BA" is itself rewritten to the
canonical bullet marker by the leading-bullet rule. -/
theorem c1_counterexample :
    ParseResumeScript.extract_resume
      [some "Experience\n•Software-\nEngineer",
       some "Education\n\n\nBA  Computer   Science"] ≠
    "Experience - Software Engineer Education BA Computer Science" := by decide

/-- C1 (amended): the two-page scenario produces exactly
"Experience - Software Engineer Education - BA Computer Science" — with the
canonical bullet marker also in front of "BA", because the leading-bullet
rule matches the whitespace run opening that line — and the output contains
no bullet glyph and no run of two adjacent whitespace characters. -/
theorem c1_amended_end_to_end :
    ParseResumeScript.extract_resume
      [some "Experience\n•Software-\nEngineer",
       some "Education\n\n\nBA  Computer   Science"] =
    "Experience - Software Engineer Education - BA Computer Science" ∧
    '•' ∉ (ParseResumeScript.extract_resume
      [some "Experience\n•Software-\nEngineer",
       some "Education\n\n\nBA  Computer   Science"]).data ∧
    noAdjWsB (ParseResumeScript.extract_resume
      [some "Experience\n•Software-\nEngineer",
       some "Education\n\n\nBA  Computer   Science"]).data = true := by
  refine ⟨by decide, by decide, by decide⟩

/-- C2 counterexample: the NUL character is a control character inside the
range `\x00-\x7F`, so rule 2 keeps it and no later rule removes it — the
pipeline's output on the one-character NUL input contains a control
character. -/
theorem c2_counterexample :
    ∃ c ∈ ParseResumeScript.clean_text [Char.ofNat 0], c.toNat < 32 := by decide

/-- C3: the smart-quote conversion of `clean_text` is dead code.  Rule 2
replaces every non-ASCII character run (curly quotes included) with a
space before the `.replace` chain runs, so on the spec's own example the
output contains no straight double quote and no apostrophe at all, instead
of the claimed straight-quoted text. -/
theorem c3_smart_quotes_dead :
    ParseResumeScript.clean_text "“Quoted” and ‘apostrophe’s’".data =
      "- Quoted and apostrophe s".data ∧
    '"' ∉ ParseResumeScript.clean_text "“Quoted” and ‘apostrophe’s’".data ∧
    Char.ofNat 39 ∉ ParseResumeScript.clean_text "“Quoted” and ‘apostrophe’s’".data := by
  refine ⟨by decide, by decide, by decide⟩

/-- C4 counterexample: the single-space input is composed only of
whitespace, yet the pipeline returns "-" rather than the empty string
(the leading-bullet rule rewrites the line to "- " before trimming). -/
theorem c4_counterexample :
    ParseResumeScript.clean_text " ".data ≠ [] := by decide

/-- C5 counterexample: the full pipeline is not idempotent.  On the input
"-==*a" it produces "- *a"; re-running it turns the leading run "- *" into
"- " and yields "- a". -/
theorem c5_counterexample :
    ParseResumeScript.clean_text (ParseResumeScript.clean_text "-==*a".data) ≠
    ParseResumeScript.clean_text "-==*a".data := by decide

/-- C10 counterexample: "aB" is a word of letters, but
`clean_text " aB"` is "- a B", not "- aB" — the camel-case rule splits the
word after the leading-bullet rule has inserted the marker. -/
theorem c10_counterexample :
    (∀ c ∈ "aB".data, isAsciiLetter c = true) ∧
    ParseResumeScript.clean_text (' ' :: "aB".data) ≠ '-' :: ' ' :: "aB".data := by
  refine ⟨by decide, by decide⟩

/-- C8: the page aggregator joins the ordered per-page strings with a
single line-break, in order; a page yielding no text contributes an empty
segment, and zero pages produce the empty string. -/
theorem c8_page_aggregator :
    ParseResumeScript.joinPages [] = "" ∧
    ParseResumeScript.pageText none = "" ∧
    (∀ p, ParseResumeScript.joinPages [p] = ParseResumeScript.pageText p) ∧
    (∀ p q ps, ParseResumeScript.joinPages (p :: q :: ps) =
      ParseResumeScript.pageText p ++ "\n" ++ ParseResumeScript.joinPages (q :: ps)) :=
  ⟨rfl, rfl, fun _ => rfl, fun _ _ _ => rfl⟩

/-- C9: the `clean_text` of `parse_resume_script.py` and the `clean_text`
of `resume_parser.py` are extensionally equal — both apply the same eleven
rules in the same order. -/
theorem c9_variants_agree :
    ∀ l : List Char, ParseResumeScript.clean_text l = ResumeParserApp.clean_text l :=
  fun _ => rfl

/-- C4 (amended): a string composed only of whitespace characters and
bullet glyphs does not clean to the empty string unless it is itself
empty; the leading-bullet rule rewrites any nonempty such string to the
lone marker "-". -/
theorem c4_ws_bullet_only :
    ∀ l : List Char,
      (∀ c ∈ l, isSpacePy c = true ∨ isBulletGlyph c = true) →
      ParseResumeScript.clean_text l = if l.isEmpty then [] else ['-'] := by
  intro l h
  cases l with
  | nil => rfl
  | cons a as =>
    have hnd : '-' ∉ (a :: as) := by
      intro hmem
      rcases h '-' hmem with hws | hb
      · exact absurd hws (by decide)
      · exact absurd hb (by decide)
    have e1 : mergeHyphenBreaks (a :: as) = a :: as := hm_noDash _ _ hnd
    have hws2 : ∀ c ∈ stripNonAscii (a :: as), isSpacePy c = true := by
      intro c hc
      rcases squash1_mem _ _ hc with rfl | ⟨hcl, hna⟩
      · decide
      · rcases h c hcl with hws | hb
        · exact hws
        · rw [bullet_nonAscii hb] at hna
          exact absurd hna (by simp)
    have hasc2 : ∀ c ∈ stripNonAscii (a :: as), c.toNat ≤ 127 := by
      intro c hc
      have := isSpacePy_toNat_le (hws2 c hc)
      omega
    obtain ⟨e3, e4, e5⟩ := maps_fix_ascii hasc2
    obtain ⟨b, bs, hbs⟩ : ∃ b bs, stripNonAscii (a :: as) = b :: bs := by
      cases hsn : stripNonAscii (a :: as) with
      | nil => exact absurd hsn (squash1_ne a as)
      | cons b bs => exact ⟨b, bs, rfl⟩
    have hwsb : leadClass b = true := by
      have := hws2 b (by rw [hbs]; exact List.mem_cons_self _ _)
      simp [leadClass, this]
    have hwsbs : ∀ c ∈ bs, leadClass c = true := by
      intro c hc
      have := hws2 c (by rw [hbs]; exact List.mem_cons_of_mem _ hc)
      simp [leadClass, this]
    have e6 : normalizeLeadingBullets (stripNonAscii (a :: as)) = ['-', ' '] := by
      rw [hbs]
      simp only [normalizeLeadingBullets]
      rw [leadAux, if_pos hwsb, la_skipAll bs hwsbs]
    simp only [ParseResumeScript.clean_text]
    rw [e1, e3, e4, e5, e6]
    rfl

/-- C4 witness: the amended claim at the single-space input. -/
theorem c4_ws_bullet_only_witness :
    ParseResumeScript.clean_text [' '] =
      if ([' '] : List Char).isEmpty then [] else ['-'] :=
  c4_ws_bullet_only [' '] (by decide)

/-- C10 (amended): a line starting with ordinary indentation whitespace
and containing only letters still receives the canonical bullet marker:
for every nonempty word of ASCII letters with no lowercase letter
directly followed by an uppercase one, cleaning " " followed by the word
yields "- " followed by the word unchanged.  (Without the camel-case
restriction the claim fails, see the counterexample.) -/
theorem c10_indent_bullet (w : List Char) (hne : w ≠ [])
    (hl : ∀ c ∈ w, isAsciiLetter c = true)
    (hcc : List.Chain' Rcamel w) :
    ParseResumeScript.clean_text (' ' :: w) = '-' :: ' ' :: w := by
  have hasc : ∀ c ∈ (' ' :: w), c.toNat ≤ 127 := by
    intro c hc
    rcases List.mem_cons.1 hc with rfl | hw
    · decide
    · have := letter_bounds (hl c hw)
      omega
  have e1 : mergeHyphenBreaks (' ' :: w) = ' ' :: w := by
    refine hm_noDash _ _ ?_
    intro hmem
    rcases List.mem_cons.1 hmem with hsp | hw
    · exact absurd hsp (by decide)
    · exact absurd (hl _ hw) (by decide)
  have e2 : stripNonAscii (' ' :: w) = ' ' :: w := by
    refine squash1_fix_noP _ ?_
    intro c hc
    have := hasc c hc
    simp only [isNonAscii, decide_eq_false_iff_not]
    omega
  obtain ⟨e3, e4, e5⟩ := maps_fix_ascii hasc
  have hwNoClass : ∀ c ∈ w, leadClass c = false :=
    fun c hc => letter_not_leadClass (hl c hc)
  have e6 : normalizeLeadingBullets (' ' :: w) = '-' :: ' ' :: w := by
    simp only [normalizeLeadingBullets]
    rw [leadAux, if_pos (by decide), la_fix w true false hwNoClass]
  obtain ⟨w0, ws0, rfl⟩ : ∃ w0 ws0, w = w0 :: ws0 := by
    cases w with
    | nil => exact absurd rfl hne
    | cons w0 ws0 => exact ⟨w0, ws0, rfl⟩
  have hw0 := hl w0 (List.mem_cons_self _ _)
  have hchC : List.Chain' Rcamel ('-' :: ' ' :: w0 :: ws0) := by
    refine List.chain'_cons'.2 ⟨?_, List.chain'_cons'.2 ⟨?_, hcc⟩⟩
    · intro y _ h2; exact absurd h2.1 (by decide)
    · intro y _ h2; exact absurd h2.1 (by decide)
  have e7 : camelSplit ('-' :: ' ' :: w0 :: ws0) = '-' :: ' ' :: w0 :: ws0 :=
    ca_fix _ hchC
  have hchP : List.Chain' Rpunct ('-' :: ' ' :: w0 :: ws0) := by
    refine List.chain'_cons'.2 ⟨?_, List.chain'_cons'.2 ⟨?_, ?_⟩⟩
    · intro y _ h2; exact absurd h2 (by decide)
    · intro y _ h2; exact absurd h2 (by decide)
    · exact chain'_of_mem (fun c => isAsciiLetter c = true)
        (fun x y hx _ h2 => absurd h2 (by simp [letter_not_punct hx])) _ hl
  have e8 : punctSpace ('-' :: ' ' :: w0 :: ws0) = '-' :: ' ' :: w0 :: ws0 :=
    pu_fix _ hchP
  have hchS : List.Chain' (RnoAdj isSepChar) ('-' :: ' ' :: w0 :: ws0) := by
    refine List.chain'_cons'.2 ⟨?_, List.chain'_cons'.2 ⟨?_, ?_⟩⟩
    · intro y hy h2
      have h' := Option.mem_def.1 hy
      rw [List.head?_cons] at h'
      rcases Option.some_injective _ h' with rfl
      exact absurd h2.2 (by decide)
    · intro y _ h2; exact absurd h2.1 (by decide)
    · exact chain'_of_mem (fun c => isAsciiLetter c = true)
        (fun x y hx _ h2 => absurd h2.1 (by simp [letter_not_sep hx])) _ hl
  have e9 : squashSeparators ('-' :: ' ' :: w0 :: ws0) = '-' :: ' ' :: w0 :: ws0 :=
    squash2_fix _ hchS
  have hchN : List.Chain' (RnoAdj isNewlineChar) ('-' :: ' ' :: w0 :: ws0) := by
    refine chain'_of_mem (fun c => isNewlineChar c = false)
      (fun x y hx _ h2 => absurd h2.1 (by simp [hx])) _ ?_
    intro c hc
    rcases List.mem_cons.1 hc with rfl | hc
    · decide
    rcases List.mem_cons.1 hc with rfl | hc
    · decide
    · exact letter_not_nl (hl c hc)
  have e10 : squashNewlines ('-' :: ' ' :: w0 :: ws0) = '-' :: ' ' :: w0 :: ws0 :=
    squash2_fix _ hchN
  have hchW : List.Chain' (RnoAdj isSpacePy) ('-' :: ' ' :: w0 :: ws0) := by
    refine List.chain'_cons'.2 ⟨?_, List.chain'_cons'.2 ⟨?_, ?_⟩⟩
    · intro y _ h2; exact absurd h2.1 (by decide)
    · intro y hy h2
      have h' := Option.mem_def.1 hy
      rw [List.head?_cons] at h'
      rcases Option.some_injective _ h' with rfl
      exact absurd h2.2 (by simp [letter_not_ws hw0])
    · exact chain'_of_mem (fun c => isAsciiLetter c = true)
        (fun x y hx _ h2 => absurd h2.1 (by simp [letter_not_ws hx])) _ hl
  have hmemW : ∀ c ∈ ('-' :: ' ' :: w0 :: ws0), isSpacePy c = true → c = ' ' := by
    intro c hc hws
    rcases List.mem_cons.1 hc with rfl | hc
    · exact absurd hws (by decide)
    rcases List.mem_cons.1 hc with rfl | hc
    · rfl
    · exact absurd hws (by simp [letter_not_ws (hl c hc)])
  have e11 : collapseWhitespace ('-' :: ' ' :: w0 :: ws0) = '-' :: ' ' :: w0 :: ws0 :=
    squash1_fix _ hmemW hchW
  have hstr : strippedEnds ('-' :: ' ' :: w0 :: ws0) := by
    constructor
    · intro c hc
      rw [List.head?_cons] at hc
      rcases Option.some_injective _ hc with rfl
      decide
    · intro c hc
      have hlast : (w0 :: ws0).getLast? = some c := by
        rw [show ('-' :: ' ' :: w0 :: ws0) = ['-', ' '] ++ (w0 :: ws0) from rfl,
          List.getLast?_append_of_ne_nil _ (List.cons_ne_nil _ _)] at hc
        exact hc
      exact letter_not_ws (hl c (List.mem_of_getLast?_eq_some hlast))
  have e12 : pyStrip ('-' :: ' ' :: w0 :: ws0) = '-' :: ' ' :: w0 :: ws0 :=
    ps_fix _ hstr
  simp only [ParseResumeScript.clean_text]
  rw [e1, e2, e3, e4, e5, e6, e7, e8, e9, e10, e11, e12]

/-- C10 witness: the amended claim at the word "hello". -/
theorem c10_indent_bullet_witness :
    ParseResumeScript.clean_text (' ' :: "hello".data) = '-' :: ' ' :: "hello".data :=
  c10_indent_bullet "hello".data (by decide) (by decide)
    (chain'_of_mem (fun c => c.isUpper = false)
      (fun x y _ hy h2 => absurd h2.2 (by simp [hy])) _ (by decide))
